import Mathlib

/-!
Verification of the core logic of the Email Automation App (`main.py`):
the email-format validator, the template engine (placeholder extraction
and substitution), the CSV-table validator, and the SMTP dispatch loop.

Strings are modelled as `List Char` restricted to the ASCII fragment the
program manipulates; the regex word class matches the ASCII
`[A-Za-z0-9_]` characters.  Python dictionaries appearing as row data are
modelled as ordered association lists, matching the insertion-ordered
iteration of `dict.items()`.
-/

namespace EmailApp

/-- A Python string in this development: a list of characters. -/
abbrev Str := List Char

/-- Character class `[a-zA-Z]` of the email regex. -/
def isAsciiLetter (c : Char) : Bool :=
  ('a' ≤ c && c ≤ 'z') || ('A' ≤ c && c ≤ 'Z')

/-- Character class `[0-9]`. -/
def isAsciiDigit (c : Char) : Bool :=
  '0' ≤ c && c ≤ '9'

/-- Character class `[a-zA-Z0-9._%+-]` — the local part of the email regex. -/
def isLocalChar (c : Char) : Bool :=
  isAsciiLetter c || isAsciiDigit c || c = '.' || c = '_' || c = '%' || c = '+' || c = '-'

/-- Character class `[a-zA-Z0-9.-]` — the domain part of the email regex. -/
def isDomainChar (c : Char) : Bool :=
  isAsciiLetter c || isAsciiDigit c || c = '.' || c = '-'

/-- The ASCII word class `[A-Za-z0-9_]` — the identifier class the
specification asserts for placeholder names. -/
def isAsciiWordChar (c : Char) : Bool :=
  isAsciiLetter c || isAsciiDigit c || c = '_'

/-- Embeds the `\w` of `re.findall(r'\{\{(\w+)\}\}', template)`.  The
pattern is a `str` pattern without `re.ASCII`, so `\w` is Unicode-aware:
underscore or any Unicode alphanumeric (letter, decimal, digit or numeric
character), not only `[A-Za-z0-9_]`.  The model enumerates the class
exactly on the Latin-1 range `U+0000`–`U+00FF`: on ASCII it is
`[A-Za-z0-9_]`; in `U+0080`–`U+00FF` the word characters are the ordinal
indicators `ª`/`º`, the micro sign `µ`, the superscripts `¹²³`, the
fractions `¼½¾`, and the letters `À`–`Ö`, `Ø`–`ö`, `ø`–`ÿ` (`×` and `÷`
are excluded).  Characters above `U+00FF` are outside the modelled
fragment (the full Unicode tables are not reproduced here); the theorems
about `extract_placeholders` are therefore stated for Latin-1 strings. -/
def isWordChar (c : Char) : Bool :=
  isAsciiLetter c || isAsciiDigit c || c = '_' ||
    c = 'ª' || c = 'µ' || c = 'º' ||
    c = '¹' || c = '²' || c = '³' ||
    c = '¼' || c = '½' || c = '¾' ||
    ('À' ≤ c && c ≤ 'Ö') || ('Ø' ≤ c && c ≤ 'ö') || ('ø' ≤ c && c ≤ 'ÿ')

/-- Membership of a string in the modelled Latin-1 fragment. -/
def isLatin1 (c : Char) : Bool :=
  c.toNat ≤ 0xFF

/-- Embeds one anchored match attempt of the pattern
`[a-zA-Z0-9._%+-]+@[a-zA-Z0-9.-]+\.[a-zA-Z]{2,}` against the whole of `s`
(up to the position where `$` is placed).  Because `@` is not a local
character, the `+` over the local class can only stop at the maximal local
run; because the letters of the top-level-domain part contain no dot, the
literal `\.` can only be the last dot of the remainder, so the top-level
domain is the maximal letter suffix.  The backtracking regex therefore has
a match exactly when this direct decomposition succeeds. -/
def emailCoreMatch (s : Str) : Bool :=
  match s.drop (s.takeWhile isLocalChar).length with
  | '@' :: r =>
    decide (s.takeWhile isLocalChar ≠ []) &&
      (match r.reverse.drop (r.reverse.takeWhile isAsciiLetter).length with
       | '.' :: drev =>
         decide (2 ≤ (r.reverse.takeWhile isAsciiLetter).length) &&
           decide (drev ≠ []) && drev.all isDomainChar
       | _ => false)
  | _ => false

/-- Embeds `validate_email` from `main.py`:
`re.match(r'^[a-zA-Z0-9._%+-]+@[a-zA-Z0-9.-]+\.[a-zA-Z]{2,}$', email) is not None`.
Python's `$` matches at the end of the string or just before a newline at
the very end of the string, so a single trailing newline is also accepted. -/
def validate_email (s : Str) : Bool :=
  emailCoreMatch s ||
    (match s.getLast? with
     | some c => c = '\n' && emailCoreMatch s.dropLast
     | none => false)

/-- The email pattern as the specification describes it: the whole string
is `local@domain.tld`, with a non-empty run of local characters, `@`, a
non-empty run of domain characters, a dot, and at least two letters,
anchored at both ends with nothing before or after. -/
def EmailPattern (s : Str) : Prop :=
  ∃ l d t : Str,
    s = l ++ '@' :: (d ++ '.' :: t) ∧
    l ≠ [] ∧ (∀ c ∈ l, isLocalChar c) ∧
    d ≠ [] ∧ (∀ c ∈ d, isDomainChar c) ∧
    2 ≤ t.length ∧ (∀ c ∈ t, isAsciiLetter c)

/-- The literal placeholder token `{{key}}` built by
`f"{{{{{key}}}}}"` in `replace_placeholders`. -/
def mkPlaceholder (key : Str) : Str :=
  '{' :: '{' :: (key ++ ['}', '}'])

/-- Embeds the single regex-match attempt of `re.findall(r'\{\{(\w+)\}\}', t)`
at the current position: two opening braces, a non-empty greedy run of word
characters, two closing braces.  The greedy `\w+` cannot backtrack to a
shorter run (the character after a shorter run is a word character, not a
closing brace), so only the maximal run is tried. -/
def matchPlaceholderAt (s : Str) : Option (Str × Str) :=
  match s with
  | c1 :: c2 :: rest =>
    if c1 = '{' ∧ c2 = '{' then
      let name := rest.takeWhile isWordChar
      if name = [] then none
      else
        match rest.drop name.length with
        | d1 :: d2 :: rest3 =>
          if d1 = '}' ∧ d2 = '}' then some (name, rest3) else none
        | _ => none
    else none
  | _ => none

/-- The scan of `re.findall(r'\{\{(\w+)\}\}', template)`: at each position
try a match; on success record the captured name and resume after the
match, otherwise advance one character.  Structural recursion on a fuel
bound; a successful match consumes at least five characters, so fuel at
least the length of the string never runs out. -/
def findAux : Nat → Str → List Str
  | 0, _ => []
  | fuel + 1, s =>
    match matchPlaceholderAt s with
    | some (name, rest3) => name :: findAux fuel rest3
    | none =>
      match s with
      | [] => []
      | _ :: rest => findAux fuel rest

/-- Embeds the full scan of `re.findall(r'\{\{(\w+)\}\}', template)`. -/
def findPlaceholders (s : Str) : List Str :=
  findAux s.length s

/-- Embeds `extract_placeholders` from `main.py`:
`list(set(re.findall(r'\{\{(\w+)\}\}', template)))` — the captured names
with duplicates collapsed. -/
def extract_placeholders (template : Str) : List Str :=
  (findPlaceholders template).dedup

/-- The scan of Python `str.replace(pat, rep)` for a non-empty pattern
`p :: ps`: replace every non-overlapping occurrence, scanning left to
right.  Structural recursion on a fuel bound; each step consumes at least
one character, so fuel at least the length of the string never runs
out. -/
def pyReplaceAux (p : Char) (ps rep : Str) : Nat → Str → Str
  | 0, s => s
  | _, [] => []
  | fuel + 1, c :: rest =>
    if (p :: ps).isPrefixOf (c :: rest) then
      rep ++ pyReplaceAux p ps rep fuel ((c :: rest).drop (ps.length + 1))
    else
      c :: pyReplaceAux p ps rep fuel rest

/-- Embeds Python `str.replace(pat, rep)` for a non-empty pattern
`p :: ps`. -/
def pyReplace (p : Char) (ps rep : Str) (s : Str) : Str :=
  pyReplaceAux p ps rep s.length s

/-- Embeds `replace_placeholders(template, data)` from `main.py`: starting
from the template, for each `(key, value)` of the row data in order,
replace every occurrence of `{{key}}` by the value. -/
def replace_placeholders (template : Str) (data : List (Str × Str)) : Str :=
  data.foldl (fun result kv => pyReplace '{' ('{' :: (kv.1 ++ ['}', '}'])) kv.2 result) template

/-- Specification of replacing every literal occurrence of `pat` in `s`
by `rep`, in the spec's words: `s` splits into segments around the
replaced occurrences (`s` is the segments interleaved with `pat`, the
output the same segments interleaved with `rep`); no occurrence of `pat`
begins strictly inside any segment that precedes a replaced occurrence —
so no occurrence is missed and the replaced ones are exactly the leftmost
non-overlapping occurrences — and the final segment contains no
occurrence at all. -/
def ReplacesEverySpec (pat rep s out : Str) : Prop :=
  ∃ segs : List Str, segs ≠ [] ∧
    s = List.intercalate pat segs ∧
    out = List.intercalate rep segs ∧
    (∀ si ∈ segs.dropLast, ∀ a1 a2 : Str, si = a1 ++ a2 → a2 ≠ [] →
      ¬ (pat <+: a2 ++ pat)) ∧
    (∀ sl, segs.getLast? = some sl → ¬ (pat <:+: sl))

/-- Specification of `render(template, rowData)` in the spec's words: for
each key of the row data, taken in order, every literal occurrence of
`{{key}}` in the current string is replaced by the key's value. -/
inductive RenderSpec : Str → List (Str × Str) → Str → Prop where
  | nil (T : Str) : RenderSpec T [] T
  | cons (T mid out k v : Str) (rest : List (Str × Str)) :
      ReplacesEverySpec (mkPlaceholder k) v T mid →
      RenderSpec mid rest out →
      RenderSpec T ((k, v) :: rest) out

/-- A cell of the recipient table: `none` models a pandas null (`NaN`),
`some s` a string value. -/
abbrev Cell := Option Str

/-- A pandas `DataFrame` as the validator sees it: named columns, each a
series of cells.  `df[c]` resolves to the first column named `c`. -/
structure DataFrame where
  cols : List (Str × List Cell)

/-- The column names, `df.columns`. -/
def DataFrame.columns (df : DataFrame) : List Str :=
  df.cols.map Prod.fst

/-- Column access `df[c]`: the series of the first column named `c`. -/
def DataFrame.series (df : DataFrame) (c : Str) : List Cell :=
  match df.cols.find? (fun p => p.1 = c) with
  | some p => p.2
  | none => []

/-- Decimal digits of a natural number, with a structural fuel bound. -/
def natToCharsAux : Nat → Nat → Str
  | 0, _ => []
  | fuel + 1, n =>
    if n < 10 then [Nat.digitChar n]
    else natToCharsAux fuel (n / 10) ++ [Nat.digitChar (n % 10)]

/-- Decimal digits of a natural number, as characters. -/
def natToChars (n : Nat) : Str :=
  natToCharsAux (n + 1) n

/-- Python `sep.join(xs)`. -/
def joinSep (sep : Str) : List Str → Str
  | [] => []
  | [x] => x
  | x :: y :: rest => x ++ sep ++ joinSep sep (y :: rest)

/-- The `name` column header. -/
def nameCol : Str := "name".toList

/-- The `email` column header. -/
def emailCol : Str := "email".toList

/-- One cell of the per-column emptiness check:
`df[col].isnull().any() or (df[col] == '').any()` flags a cell that is
null or the empty string. -/
def isEmptyCell (c : Cell) : Bool :=
  c.isNone || c = some []

/-- The string a cell shows to `validate_email`: the cell's value.  After
the emptiness check has passed every cell is `some` of a non-empty
string, so the default is never read on the path that uses it. -/
def cellStr (c : Cell) : Str :=
  c.getD []

/-- The formatted entry `f"Row {idx + 1}: {email}"` of the invalid-email
report. -/
def rowEntry (oneBasedIdx : Nat) (email : Str) : Str :=
  "Row ".toList ++ natToChars oneBasedIdx ++ ": ".toList ++ email

/-- The full list of invalid-email entries collected by the loop
`for idx, email in enumerate(df['email'])`, in row order, with 1-based
row numbers, before any truncation. -/
def offendingRows (df : DataFrame) : List Str :=
  (df.series emailCol).enum.filterMap
    (fun p => if validate_email (cellStr p.2) then none else some (rowEntry (p.1 + 1) (cellStr p.2)))

/-- Embeds `validate_csv_columns(df)` from `main.py`, message strings
included: first the required-column presence check, then the per-column
emptiness check over `name` and then `email`, then the email-format scan
whose report is truncated to the first five entries. -/
def validate_csv_columns (df : DataFrame) : Bool × Str :=
  if [nameCol, emailCol].filter (fun c => decide (c ∉ df.columns)) ≠ [] then
    (false, "Missing required columns: ".toList ++
      joinSep ", ".toList ([nameCol, emailCol].filter (fun c => decide (c ∉ df.columns))))
  else if (df.series nameCol).any isEmptyCell then
    (false, "Column 'name' contains empty values".toList)
  else if (df.series emailCol).any isEmptyCell then
    (false, "Column 'email' contains empty values".toList)
  else if offendingRows df ≠ [] then
    (false, "Invalid email addresses found:\n".toList ++
      joinSep "\n".toList ((offendingRows df).take 5))
  else
    (true, "CSV validation successful".toList)

/-- One recipient row as the dispatch loop consumes it: the mandatory
`name` and `email` fields plus the full row mapping handed to
`replace_placeholders`. -/
structure Row where
  name : Str
  email : Str
  data : List (Str × Str)

/-- The SMTP transport abstracted for the dispatch loop: whether the
connect/starttls/login phase raises (and with what message), and, for
each row position, whether `send_message` raises (and with what
message). -/
structure Transport where
  connectError : Option Str
  sendError : Nat → Option Str

/-- Embeds `send_email(...)` from `main.py`: builds and sends one message
inside a try/except, returning `(True, "Email sent successfully")` on
success and `(False, "Failed to send email: " + str(e))` when the send
raises. -/
def send_email (t : Transport) (rowIdx : Nat) (_recipient : Str) (_body : Str) : Bool × Str :=
  match t.sendError rowIdx with
  | none => (true, "Email sent successfully".toList)
  | some e => (false, "Failed to send email: ".toList ++ e)

/-- One entry of `st.session_state.email_results`. -/
structure SendOutcome where
  recipient : Str
  name : Str
  success : Bool
  message : Str
deriving DecidableEq

/-- Observable transport events of one run of the send handler, used to
state the resource-handling claims. -/
inductive Event where
  | connected
  | sent (rowIdx : Nat)
  | quit
  | connectFailed (msg : Str)
deriving DecidableEq

/-- The single outcome appended for the row at position `idx`: the body
is rendered with `replace_placeholders`, handed to `send_email`, and the
returned pair is recorded with the row's email and name. -/
def rowOutcome (t : Transport) (template : Str) (idx : Nat) (row : Row) : SendOutcome :=
  { recipient := row.email
    name := row.name
    success := (send_email t idx row.email (replace_placeholders template row.data)).1
    message := (send_email t idx row.email (replace_placeholders template row.data)).2 }

/-- The body of the per-row loop `for idx, row in df.iterrows()`: render
the body, attempt the send, append the outcome, continue with the next
row.  Either branch of the row-level try/except appends exactly one
outcome, so each row yields one entry and the loop never aborts. -/
def sendLoop (t : Transport) (template : Str) : List Row → Nat → List SendOutcome
  | [], _ => []
  | row :: rest, idx => rowOutcome t template idx row :: sendLoop t template rest (idx + 1)

/-- The events emitted by the per-row loop, in order. -/
def sentEvents : List Row → Nat → List Event
  | [], _ => []
  | _ :: rest, idx => Event.sent idx :: sentEvents rest (idx + 1)

/-- The observable result of one click of "Send All Emails". -/
structure DispatchResult where
  results : List SendOutcome
  fatalError : Option Str
  events : List Event

/-- Embeds the send handler of `main()` (`if st.button("Send All Emails")`):
reset the results, connect/starttls/login inside a try block — on an
exception report `"SMTP connection error: ..."` once with no outcomes and
no sends — otherwise run the per-row loop (whose body catches its own
exceptions) over all rows in order and finally call `server.quit()`. -/
def dispatch (t : Transport) (template : Str) (rows : List Row) : DispatchResult :=
  match t.connectError with
  | some e =>
    { results := []
      fatalError := some ("SMTP connection error: ".toList ++ e)
      events := [Event.connectFailed e] }
  | none =>
    { results := sendLoop t template rows 0
      fatalError := none
      events := Event.connected :: (sentEvents rows 0 ++ [Event.quit]) }

/-! ### Helper lemmas on takeWhile and the placeholder matcher -/

theorem dropWhile_eq_drop_len (p : Char → Bool) :
    ∀ l : List Char, l.dropWhile p = l.drop (l.takeWhile p).length := by
  intro l
  induction l with
  | nil => simp
  | cons c t ih =>
    by_cases h : p c <;> simp [List.dropWhile_cons, List.takeWhile_cons, h, ih]

theorem takeWhile_append_drop_len (p : Char → Bool) (l : List Char) :
    l.takeWhile p ++ l.drop (l.takeWhile p).length = l := by
  rw [← dropWhile_eq_drop_len]
  exact List.takeWhile_append_dropWhile p l

/-- A `takeWhile` over a run of satisfying characters followed by a
stopping character returns exactly the run. -/
theorem takeWhile_all_stop (p : Char → Bool) (l r : Str) (x : Char)
    (hl : ∀ c ∈ l, p c) (hx : p x = false) :
    (l ++ x :: r).takeWhile p = l := by
  induction l with
  | nil => simp [List.takeWhile_cons, hx]
  | cons c t ih =>
    have hc : p c := hl c (by simp)
    have ih2 := ih (fun d hd => hl d (by simp [hd]))
    simp [List.takeWhile_cons, hc, ih2]

/-- A successful match attempt decomposes the input as the literal token
followed by the remainder, with a non-empty all-word-character name. -/
theorem matchPlaceholderAt_eq_some {s name rest3 : Str}
    (h : matchPlaceholderAt s = some (name, rest3)) :
    s = mkPlaceholder name ++ rest3 ∧ name ≠ [] ∧ ∀ c ∈ name, isWordChar c := by
  match s with
  | [] => simp [matchPlaceholderAt] at h
  | [c] => simp [matchPlaceholderAt] at h
  | c1 :: c2 :: rest =>
    simp only [matchPlaceholderAt] at h
    split at h
    · next hbr =>
      obtain ⟨hb1, hb2⟩ := hbr
      subst hb1; subst hb2
      split at h
      · exact absurd h (by simp)
      · next hne =>
        split at h
        · next d1 d2 rest3x hdrop =>
          split at h
          · next hcl =>
            obtain ⟨hc1, hc2⟩ := hcl
            subst hc1; subst hc2
            obtain ⟨hname, hrest⟩ := Prod.mk.injEq .. ▸ Option.some.inj h
            subst hname; subst hrest
            refine ⟨?_, hne, fun c hc => List.mem_takeWhile_imp hc⟩
            simp only [mkPlaceholder, List.cons_append, List.append_assoc]
            conv_lhs => rw [← takeWhile_append_drop_len isWordChar rest]
            rw [hdrop]
            simp
          · exact absurd h (by simp)
        · exact absurd h (by simp)
    · exact absurd h (by simp)

/-- Conversely, the matcher succeeds on any input that starts with a
well-formed placeholder token. -/
theorem matchPlaceholderAt_token (name v : Str)
    (hne : name ≠ []) (hw : ∀ c ∈ name, isWordChar c) :
    matchPlaceholderAt (mkPlaceholder name ++ v) = some (name, v) := by
  have hbrace : isWordChar '}' = false := by decide
  have htake : (name ++ '}' :: '}' :: v).takeWhile isWordChar = name :=
    takeWhile_all_stop isWordChar name ('}' :: v) '}' hw hbrace
  have hdrop : (name ++ '}' :: '}' :: v).drop name.length = '}' :: '}' :: v :=
    List.drop_left name ('}' :: '}' :: v)
  simp [matchPlaceholderAt, mkPlaceholder, htake, hdrop, hne]

/-! ### Placeholder occurrences cannot start inside a matched token -/

/-- A placeholder occurrence in a list whose head is not an opening brace
lies entirely in the tail. -/
theorem infix_tail_of_head_ne {x : Char} (hx : x ≠ '{') {rest u v name : Str}
    (h : x :: rest = u ++ mkPlaceholder name ++ v) :
    mkPlaceholder name <:+: rest := by
  cases u with
  | nil =>
    exfalso
    simp only [List.nil_append, mkPlaceholder, List.cons_append] at h
    exact hx (List.head_eq_of_cons_eq h)
  | cons a u2 =>
    simp only [List.cons_append, List.cons.injEq] at h
    exact ⟨u2, v, h.2.symm⟩

/-- A placeholder occurrence in a word-character run followed by the two
closing braces of a matched token lies entirely after those braces. -/
theorem infix_rest_of_run (n0 : Str) (hw : ∀ c ∈ n0, isWordChar c) :
    ∀ {u : Str} {rest3 v name : Str},
    n0 ++ '}' :: '}' :: rest3 = u ++ mkPlaceholder name ++ v →
    mkPlaceholder name <:+: rest3 := by
  induction n0 with
  | nil =>
    intro u rest3 v name h
    simp only [List.nil_append] at h
    have h1 : mkPlaceholder name <:+: ('}' :: rest3) :=
      infix_tail_of_head_ne (by decide) h
    obtain ⟨u2, v2, h2⟩ := h1
    exact infix_tail_of_head_ne (by decide) h2.symm
  | cons w n0m ih =>
    intro u rest3 v name h
    cases u with
    | nil =>
      exfalso
      simp only [List.nil_append, mkPlaceholder, List.cons_append] at h
      have hww : isWordChar w := hw w (by simp)
      have : w = '{' := List.head_eq_of_cons_eq h
      rw [this] at hww
      exact absurd hww (by decide)
    | cons a u2 =>
      simp only [List.cons_append, List.cons.injEq] at h
      exact ih (fun c hc => hw c (by simp [hc])) h.2

/-- Any placeholder occurrence in a matched token followed by a remainder
is either the matched token itself or lies in the remainder. -/
theorem occurrence_split {n0 rest3 u v name : Str}
    (hn0w : ∀ c ∈ n0, isWordChar c) (hn0 : n0 ≠ []) (hnw : ∀ c ∈ name, isWordChar c)
    (h : mkPlaceholder n0 ++ rest3 = u ++ mkPlaceholder name ++ v) :
    name = n0 ∨ mkPlaceholder name <:+: rest3 := by
  cases u with
  | nil =>
    left
    simp only [List.nil_append, mkPlaceholder, List.cons_append, List.append_assoc,
      List.cons.injEq, true_and] at h
    have h2 : n0 ++ '}' :: '}' :: rest3 = name ++ '}' :: '}' :: v := by
      simpa using h
    have hbrace : isWordChar '}' = false := by decide
    have t1 : (n0 ++ '}' :: '}' :: rest3).takeWhile isWordChar = n0 :=
      takeWhile_all_stop isWordChar n0 ('}' :: rest3) '}' hn0w hbrace
    have t2 : (name ++ '}' :: '}' :: v).takeWhile isWordChar = name :=
      takeWhile_all_stop isWordChar name ('}' :: v) '}' hnw hbrace
    rw [← t1, ← t2, h2]
  | cons a u2 =>
    simp only [mkPlaceholder, List.cons_append, List.append_assoc, List.cons.injEq] at h
    obtain ⟨ha, h⟩ := h
    cases u2 with
    | nil =>
      exfalso
      simp only [List.nil_append] at h
      obtain ⟨c0, n0m, rfl⟩ := List.exists_cons_of_ne_nil hn0
      have hcw : isWordChar c0 := hn0w c0 (by simp)
      simp only [List.cons_append, List.cons.injEq] at h
      rw [h.2.1] at hcw
      exact absurd hcw (by decide)
    | cons b u3 =>
      simp only [List.cons_append, List.cons.injEq] at h
      right
      have h3 : n0 ++ '}' :: '}' :: rest3 = u3 ++ mkPlaceholder name ++ v := by
        simpa [mkPlaceholder, List.cons_append, List.append_assoc] using h.2
      exact infix_rest_of_run n0 hn0w h3

/-! ### The scan finds exactly the placeholder occurrences -/

theorem findAux_succ (fuel : Nat) (s : Str) :
    findAux (fuel + 1) s =
      match matchPlaceholderAt s with
      | some (name, rest3) => name :: findAux fuel rest3
      | none =>
        match s with
        | [] => []
        | _ :: rest => findAux fuel rest := rfl

/-- Soundness of the scan: every name it captures is a non-empty
word-character identifier whose token occurs in the input. -/
theorem mem_findAux : ∀ {fuel : Nat} {s name : Str}, name ∈ findAux fuel s →
    name ≠ [] ∧ (∀ c ∈ name, isWordChar c) ∧ mkPlaceholder name <:+: s := by
  intro fuel
  induction fuel with
  | zero => intro s name h; simp [findAux] at h
  | succ fuel ih =>
    intro s name h
    rw [findAux_succ] at h
    split at h
    · next n0 rest3 hm =>
      obtain ⟨hs, hn0ne, hn0w⟩ := matchPlaceholderAt_eq_some hm
      rcases List.mem_cons.mp h with heq | hmem
      · subst heq
        exact ⟨hn0ne, hn0w, ⟨[], rest3, by simp [hs]⟩⟩
      · obtain ⟨hne, hw, a, b, hab⟩ := ih hmem
        exact ⟨hne, hw, ⟨mkPlaceholder n0 ++ a, b, by simp [hs, ← hab]⟩⟩
    · next hm =>
      split at h
      · simp at h
      · next c rest =>
        obtain ⟨hne, hw, a, b, hab⟩ := ih h
        exact ⟨hne, hw, ⟨c :: a, b, by simp [← hab]⟩⟩

/-- Completeness of the scan: with enough fuel, every non-empty
word-character identifier whose token occurs in the input is captured. -/
theorem findAux_complete : ∀ {fuel : Nat} {s name : Str}, name ≠ [] →
    (∀ c ∈ name, isWordChar c) → mkPlaceholder name <:+: s → s.length ≤ fuel →
    name ∈ findAux fuel s := by
  intro fuel
  induction fuel with
  | zero =>
    intro s name hne hw hinf hlen
    exfalso
    have hs : s = [] := List.eq_nil_of_length_eq_zero (Nat.le_zero.mp hlen)
    subst hs
    obtain ⟨a, b, hab⟩ := hinf
    simp [mkPlaceholder] at hab
  | succ fuel ih =>
    intro s name hne hw hinf hlen
    rw [findAux_succ]
    split
    · next n0 rest3 hm =>
      obtain ⟨hs, hn0ne, hn0w⟩ := matchPlaceholderAt_eq_some hm
      obtain ⟨u, v, huv⟩ := hinf
      have hsplit : name = n0 ∨ mkPlaceholder name <:+: rest3 :=
        occurrence_split hn0w hn0ne hw (by rw [← hs, ← huv])
      rcases hsplit with heq | hinf3
      · subst heq
        exact List.mem_cons_self _ _
      · have hlen3 : rest3.length ≤ fuel := by
          have := congrArg List.length hs
          simp only [List.length_append, mkPlaceholder, List.length_cons] at this
          omega
        exact List.mem_cons_of_mem _ (ih hne hw hinf3 hlen3)
    · next hm =>
      split
      · exfalso
        obtain ⟨a, b, hab⟩ := hinf
        simp [mkPlaceholder] at hab
      · rename_i hd rest
        obtain ⟨u, v, huv⟩ := hinf
        cases u with
        | nil =>
          exfalso
          simp only [List.nil_append] at huv
          have htok : matchPlaceholderAt (mkPlaceholder name ++ v) = some (name, v) :=
            matchPlaceholderAt_token name v hne hw
          rw [huv] at htok
          rw [hm] at htok
          exact Option.noConfusion htok
        | cons a u2 =>
          simp only [List.cons_append, List.cons.injEq] at huv
          have hrest : mkPlaceholder name <:+: rest := ⟨u2, v, huv.2⟩
          have hlenr : rest.length ≤ fuel := by
            simp only [List.length_cons] at hlen
            omega
          exact ih hne hw hrest hlenr

/-! ### The email matcher decides the anchored pattern -/

theorem emailCoreMatch_iff (s : Str) : emailCoreMatch s = true ↔ EmailPattern s := by
  constructor
  · intro h
    rw [emailCoreMatch] at h
    split at h
    · next r hdrop =>
      rw [Bool.and_eq_true, decide_eq_true_eq] at h
      obtain ⟨hlne, h⟩ := h
      split at h
      · next drev hdrop2 =>
        rw [Bool.and_eq_true, Bool.and_eq_true, decide_eq_true_eq, decide_eq_true_eq,
          List.all_eq_true] at h
        obtain ⟨⟨htlen, hdne⟩, hdc⟩ := h
        have hs : s = s.takeWhile isLocalChar ++ '@' :: r := by
          conv_lhs => rw [← takeWhile_append_drop_len isLocalChar s]
          rw [hdrop]
        have hrr : r.reverse =
            (r.reverse.takeWhile isAsciiLetter) ++ '.' :: drev := by
          conv_lhs => rw [← takeWhile_append_drop_len isAsciiLetter r.reverse]
          rw [hdrop2]
        have hr : r = drev.reverse ++ '.' :: (r.reverse.takeWhile isAsciiLetter).reverse := by
          have := congrArg List.reverse hrr
          simpa [List.reverse_append] using this
        refine ⟨s.takeWhile isLocalChar, drev.reverse,
          (r.reverse.takeWhile isAsciiLetter).reverse, ?_, hlne,
          fun c hc => List.mem_takeWhile_imp hc, ?_, ?_, ?_, ?_⟩
        · conv_lhs => rw [hs, hr]
        · simpa using hdne
        · intro c hc
          exact hdc c (List.mem_reverse.mp hc)
        · simpa using htlen
        · intro c hc
          exact List.mem_takeWhile_imp (List.mem_reverse.mp hc)
      · exact absurd h (by simp)
    · exact absurd h (by simp)
  · rintro ⟨l, d, t, rfl, hlne, hlc, hdne, hdc, htlen, htc⟩
    have h1 : (l ++ '@' :: (d ++ '.' :: t)).takeWhile isLocalChar = l :=
      takeWhile_all_stop isLocalChar l _ '@' hlc (by decide)
    have h2 : (l ++ '@' :: (d ++ '.' :: t)).drop l.length = '@' :: (d ++ '.' :: t) :=
      List.drop_left l _
    have h3 : (d ++ '.' :: t).reverse = t.reverse ++ '.' :: d.reverse := by
      simp [List.reverse_append]
    have h4 : (t.reverse ++ '.' :: d.reverse).takeWhile isAsciiLetter = t.reverse :=
      takeWhile_all_stop isAsciiLetter t.reverse _ '.'
        (fun c hc => htc c (List.mem_reverse.mp hc)) (by decide)
    have h5 : (t.reverse ++ '.' :: d.reverse).drop t.reverse.length = '.' :: d.reverse :=
      List.drop_left t.reverse _
    rw [emailCoreMatch]
    simp only [h1, h2, h3, h4, h5]
    simp only [Bool.and_eq_true, decide_eq_true_eq, List.length_reverse, List.all_eq_true]
    refine ⟨hlne, ⟨htlen, by simp [hdne]⟩, ?_⟩
    intro c hc
    exact hdc c (List.mem_reverse.mp hc)

/-- The decomposition forces the final character to be a letter. -/
theorem emailPattern_last {s : Str} (h : EmailPattern s) :
    ∃ c, s.getLast? = some c ∧ isAsciiLetter c := by
  obtain ⟨l, d, t, rfl, _, _, _, _, htlen, htc⟩ := h
  have htne : t ≠ [] := by
    intro hx
    rw [hx] at htlen
    simp at htlen
  refine ⟨t.getLast htne, ?_, htc _ (List.getLast_mem htne)⟩
  have e1 : (l ++ '@' :: (d ++ '.' :: t)).getLast? = ('.' :: t).getLast? := by
    rw [List.getLast?_append_cons]
    rw [show ('@' :: (d ++ '.' :: t)) = ('@' :: d) ++ '.' :: t by simp]
    rw [List.getLast?_append_cons]
  have e2 : ('.' :: t).getLast? = t.getLast? := by
    rw [show ('.' :: t) = ['.'] ++ t from rfl]
    exact List.getLast?_append_of_ne_nil _ htne
  rw [e1, e2]
  exact List.getLast?_eq_getLast_of_ne_nil htne

theorem validate_email_iff (s : Str) :
    validate_email s = true ↔
      EmailPattern s ∨ ∃ s0, s = s0 ++ ['\n'] ∧ EmailPattern s0 := by
  rw [validate_email, Bool.or_eq_true, emailCoreMatch_iff]
  apply or_congr Iff.rfl
  constructor
  · intro h
    split at h
    · next c hlast =>
      rw [Bool.and_eq_true, decide_eq_true_eq] at h
      obtain ⟨hc, hcore⟩ := h
      subst hc
      refine ⟨s.dropLast, ?_, (emailCoreMatch_iff _).mp hcore⟩
      exact (List.dropLast_append_getLast? '\n' (Option.mem_def.mpr hlast)).symm
    · simp at h
  · rintro ⟨s0, rfl, hp⟩
    have hlast : (s0 ++ ['\n']).getLast? = some '\n' := by
      rw [List.getLast?_append_of_ne_nil _ (by simp : (['\n'] : Str) ≠ [])]
      rfl
    have hdl : (s0 ++ ['\n']).dropLast = s0 := by
      simp
    rw [hlast]
    simp [hdl, (emailCoreMatch_iff s0).mpr hp]

/-! ### Replacement leaves strings without the pattern unchanged -/

theorem pyReplaceAux_succ (p : Char) (ps rep : Str) (fuel : Nat) (c : Char) (rest : Str) :
    pyReplaceAux p ps rep (fuel + 1) (c :: rest) =
      if (p :: ps).isPrefixOf (c :: rest) then
        rep ++ pyReplaceAux p ps rep fuel ((c :: rest).drop (ps.length + 1))
      else
        c :: pyReplaceAux p ps rep fuel rest := rfl

theorem isInfix_cons_weaken {l rest : Str} {c : Char} (h : l <:+: rest) :
    l <:+: c :: rest := by
  obtain ⟨u, v, huv⟩ := h
  exact ⟨c :: u, v, by simp [huv]⟩

theorem pyReplaceAux_of_not_infix (p : Char) (ps rep : Str) :
    ∀ (fuel : Nat) (s : Str), ¬ ((p :: ps) <:+: s) → pyReplaceAux p ps rep fuel s = s := by
  intro fuel
  induction fuel with
  | zero => intro s h; cases s <;> rfl
  | succ fuel ih =>
    intro s h
    cases s with
    | nil => rfl
    | cons c rest =>
      rw [pyReplaceAux_succ]
      rw [if_neg]
      · rw [ih rest (fun hr => h (isInfix_cons_weaken hr))]
      · intro hp
        exact h ((List.isPrefixOf_iff_prefix.mp hp).isInfix)

theorem pyReplace_of_not_infix (p : Char) (ps rep : Str) (s : Str)
    (h : ¬ ((p :: ps) <:+: s)) : pyReplace p ps rep s = s :=
  pyReplaceAux_of_not_infix p ps rep s.length s h

/-- If no key of the row data has its token in the template, substitution
is the identity. -/
theorem replace_placeholders_of_no_occurrence :
    ∀ (data : List (Str × Str)) (T : Str),
    (∀ kv ∈ data, ¬ (mkPlaceholder kv.1 <:+: T)) → replace_placeholders T data = T := by
  intro data
  induction data with
  | nil => intro T _; rfl
  | cons kv rest ih =>
    intro T h
    have hstep : replace_placeholders T (kv :: rest) =
        replace_placeholders (pyReplace '{' ('{' :: (kv.1 ++ ['}', '}'])) kv.2 T) rest := rfl
    have h1 : pyReplace '{' ('{' :: (kv.1 ++ ['}', '}'])) kv.2 T = T :=
      pyReplace_of_not_infix _ _ _ _ (h kv (List.mem_cons_self _ _))
    rw [hstep, h1]
    exact ih T (fun kv2 hkv2 => h kv2 (List.mem_cons_of_mem _ hkv2))

/-! ### The replacement scan meets the replaces-every-occurrence specification -/

theorem intercalate_single (sep x : Str) : List.intercalate sep [x] = x := by
  simp [List.intercalate, List.intersperse]

theorem intercalate_cons2 (sep x y : Str) (t : List Str) :
    List.intercalate sep (x :: y :: t) = x ++ sep ++ List.intercalate sep (y :: t) := by
  simp [List.intercalate, List.intersperse]

theorem replacesEverySpec_nil (p : Char) (ps rep : Str) :
    ReplacesEverySpec (p :: ps) rep [] [] := by
  refine ⟨[[]], by simp, by simp [intercalate_single], by simp [intercalate_single],
    by simp, ?_⟩
  intro sl hsl
  simp only [List.getLast?_singleton, Option.some.injEq] at hsl
  subst hsl
  rintro ⟨u, v, huv⟩
  simp at huv

theorem pyReplaceAux_replaces (p : Char) (ps rep : Str) :
    ∀ (fuel : Nat) (s : Str), s.length ≤ fuel →
    ReplacesEverySpec (p :: ps) rep s (pyReplaceAux p ps rep fuel s) := by
  intro fuel
  induction fuel with
  | zero =>
    intro s hlen
    have hs : s = [] := List.eq_nil_of_length_eq_zero (Nat.le_zero.mp hlen)
    subst hs
    exact replacesEverySpec_nil p ps rep
  | succ fuel ih =>
    intro s hlen
    cases s with
    | nil => exact replacesEverySpec_nil p ps rep
    | cons c rest =>
      rw [pyReplaceAux_succ]
      by_cases hp : (p :: ps).isPrefixOf (c :: rest)
      · rw [if_pos hp]
        obtain ⟨s', hs'⟩ := List.isPrefixOf_iff_prefix.mp hp
        have hdrop : (c :: rest).drop (ps.length + 1) = s' := by
          rw [← hs']
          have hd := List.drop_left (p :: ps) s'
          simp only [List.length_cons] at hd
          exact hd
        have hlen' : s'.length ≤ fuel := by
          have hl := congrArg List.length hs'
          simp only [List.length_append, List.length_cons] at hl hlen
          omega
        obtain ⟨segs', hne', hseq, houteq, hmid, hlast⟩ := ih s' hlen'
        rw [hdrop]
        obtain ⟨y, t, rfl⟩ : ∃ y t, segs' = y :: t := by
          cases segs' with
          | nil => exact absurd rfl hne'
          | cons a b => exact ⟨a, b, rfl⟩
        refine ⟨[] :: y :: t, by simp, ?_, ?_, ?_, ?_⟩
        · rw [intercalate_cons2]
          simp only [List.nil_append]
          rw [← hseq]
          exact hs'.symm
        · rw [intercalate_cons2]
          simp only [List.nil_append]
          rw [← houteq]
        · intro si hsi
          rw [List.dropLast_cons_of_ne_nil (by simp)] at hsi
          rcases List.mem_cons.mp hsi with rfl | hsi'
          · intro a1 a2 hsplit ha2
            exfalso
            have ha : a2 = [] := by
              have hl := congrArg List.length hsplit
              simp only [List.length_nil, List.length_append] at hl
              exact List.eq_nil_of_length_eq_zero (by omega)
            exact ha2 ha
          · exact hmid si hsi'
        · intro sl hsl
          rw [show ([] :: y :: t : List Str) = [[]] ++ (y :: t) from rfl,
            List.getLast?_append_of_ne_nil _ (by simp)] at hsl
          exact hlast sl hsl
      · rw [if_neg hp]
        have hnp : ¬ ((p :: ps) <+: (c :: rest)) :=
          fun hc => hp (List.isPrefixOf_iff_prefix.mpr hc)
        have hlenr : rest.length ≤ fuel := by
          simp only [List.length_cons] at hlen
          omega
        obtain ⟨segs', hne', hseq, houteq, hmid, hlast⟩ := ih rest hlenr
        obtain ⟨s0, tail, rfl⟩ : ∃ s0 tail, segs' = s0 :: tail := by
          cases segs' with
          | nil => exact absurd rfl hne'
          | cons a b => exact ⟨a, b, rfl⟩
        refine ⟨(c :: s0) :: tail, by simp, ?_, ?_, ?_, ?_⟩
        · cases tail with
          | nil =>
            rw [intercalate_single] at hseq
            rw [intercalate_single, hseq]
          | cons y t =>
            rw [intercalate_cons2] at hseq
            rw [intercalate_cons2]
            simp [hseq]
        · cases tail with
          | nil =>
            rw [intercalate_single] at houteq
            rw [intercalate_single, houteq]
          | cons y t =>
            rw [intercalate_cons2] at houteq
            rw [intercalate_cons2]
            simp [houteq]
        · intro si hsi
          cases tail with
          | nil => simp at hsi
          | cons y t =>
            rw [List.dropLast_cons_of_ne_nil (by simp)] at hsi
            rcases List.mem_cons.mp hsi with rfl | hsi'
            · intro a1 a2 hsplit ha2 hpref
              cases a1 with
              | nil =>
                simp only [List.nil_append] at hsplit
                subst hsplit
                apply hnp
                rw [intercalate_cons2] at hseq
                have hrest : c :: rest =
                    ((c :: s0) ++ (p :: ps)) ++ List.intercalate (p :: ps) (y :: t) := by
                  rw [hseq]
                  simp
                rw [hrest]
                exact hpref.trans (List.prefix_append _ _)
              | cons b a1m =>
                have hs0 : s0 = a1m ++ a2 := by
                  simp only [List.cons_append, List.cons.injEq] at hsplit
                  exact hsplit.2
                have hs0mem : s0 ∈ (s0 :: y :: t : List Str).dropLast := by
                  rw [List.dropLast_cons_of_ne_nil (by simp)]
                  exact List.mem_cons_self _ _
                exact hmid s0 hs0mem a1m a2 hs0 ha2 hpref
            · refine hmid si ?_
              rw [List.dropLast_cons_of_ne_nil (by simp)]
              exact List.mem_cons_of_mem _ hsi'
        · intro sl hsl
          cases tail with
          | nil =>
            simp only [List.getLast?_singleton, Option.some.injEq] at hsl
            subst hsl
            rw [intercalate_single] at hseq
            rintro ⟨u, v, huv⟩
            cases u with
            | nil =>
              simp only [List.nil_append] at huv
              apply hnp
              exact ⟨v, by rw [huv, hseq]⟩
            | cons b u2 =>
              simp only [List.cons_append, List.cons.injEq] at huv
              exact hlast s0 (by simp) ⟨u2, v, huv.2⟩
          | cons y t =>
            rw [show ((c :: s0) :: y :: t : List Str) = [c :: s0] ++ (y :: t) from rfl,
              List.getLast?_append_of_ne_nil _ (by simp)] at hsl
            refine hlast sl ?_
            rw [show (s0 :: y :: t : List Str) = [s0] ++ (y :: t) from rfl,
              List.getLast?_append_of_ne_nil _ (by simp)]
            exact hsl

theorem pyReplace_replaces (p : Char) (ps rep s : Str) :
    ReplacesEverySpec (p :: ps) rep s (pyReplace p ps rep s) :=
  pyReplaceAux_replaces p ps rep s.length s (Nat.le_refl _)

/-- The fold of `replace_placeholders` satisfies the render
specification: for each key in order, every literal occurrence of its
token is replaced by its value. -/
theorem replace_placeholders_renderSpec :
    ∀ (data : List (Str × Str)) (T : Str),
    RenderSpec T data (replace_placeholders T data) := by
  intro data
  induction data with
  | nil => intro T; exact RenderSpec.nil T
  | cons kv rest ih =>
    intro T
    obtain ⟨k, v⟩ := kv
    have hstep : replace_placeholders T ((k, v) :: rest) =
        replace_placeholders (pyReplace '{' ('{' :: (k ++ ['}', '}'])) v T) rest := rfl
    rw [hstep]
    exact RenderSpec.cons T _ _ k v rest
      (pyReplace_replaces '{' ('{' :: (k ++ ['}', '}'])) v T) (ih _)

/-! ### The dispatch loop yields one outcome per row, in order -/

theorem sendLoop_length (t : Transport) (template : Str) :
    ∀ (rows : List Row) (idx : Nat), (sendLoop t template rows idx).length = rows.length := by
  intro rows
  induction rows with
  | nil => intro idx; rfl
  | cons row rest ih => intro idx; simp [sendLoop, ih]

theorem sendLoop_getElem? (t : Transport) (template : Str) :
    ∀ (rows : List Row) (idx j : Nat),
    (sendLoop t template rows idx)[j]? = (rows[j]?).map (rowOutcome t template (idx + j)) := by
  intro rows
  induction rows with
  | nil => intro idx j; simp [sendLoop]
  | cons row rest ih =>
    intro idx j
    cases j with
    | zero => simp [sendLoop]
    | succ j =>
      simp only [sendLoop, List.getElem?_cons_succ]
      rw [ih (idx + 1) j]
      have harith : idx + 1 + j = idx + (j + 1) := by omega
      rw [harith]

theorem sentEvents_no_quit : ∀ (rows : List Row) (idx : Nat),
    Event.quit ∉ sentEvents rows idx := by
  intro rows
  induction rows with
  | nil => intro idx; simp [sentEvents]
  | cons row rest ih => intro idx; simp [sentEvents, ih]

/-! ### Validator branch conditions -/

theorem missing_nil_iff (df : DataFrame) :
    ([nameCol, emailCol].filter (fun c => decide (c ∉ df.columns)) = []) ↔
      (nameCol ∈ df.columns ∧ emailCol ∈ df.columns) := by
  by_cases h1 : nameCol ∈ df.columns <;> by_cases h2 : emailCol ∈ df.columns <;>
    simp [List.filter, h1, h2]

/-! ### Claims -/

/-- C4: for every template and row data, `replace_placeholders` replaces,
for each key of the row data taken in order, every literal occurrence of
`{{key}}` by the key's value (the `RenderSpec`/`ReplacesEverySpec`
conjunct, which exhibits the segments around the replaced occurrences and
forbids any missed occurrence); placeholders whose names are absent from
the row data stay literal and keys absent from the template are unused —
a template containing no key's token is returned completely unchanged, and
the spec's example `"Hi {{name}}, your code is {{code}}"` with row
`{name: "Ana", email: "ana@x.com"}` renders to
`"Hi Ana, your code is {{code}}"`, repeated occurrences all being
replaced. -/
theorem claim_c4_render_substitution :
    (∀ (T : Str) (data : List (Str × Str)),
      RenderSpec T data (replace_placeholders T data)) ∧
    replace_placeholders "Hi {{name}}, your code is {{code}}".toList
        [("name".toList, "Ana".toList), ("email".toList, "ana@x.com".toList)] =
      "Hi Ana, your code is {{code}}".toList ∧
    replace_placeholders "{{name}} and {{name}}".toList
        [("name".toList, "Ana".toList)] = "Ana and Ana".toList ∧
    (∀ (T : Str) (data : List (Str × Str)),
      (∀ kv ∈ data, ¬ (mkPlaceholder kv.1 <:+: T)) →
      replace_placeholders T data = T) :=
  ⟨fun T data => replace_placeholders_renderSpec data T, by decide, by decide,
    fun T data h => replace_placeholders_of_no_occurrence data T h⟩

theorem claim_c4_render_substitution_witness :
    RenderSpec "Hi {{name}}, your code is {{code}}".toList
      [("name".toList, "Ana".toList), ("email".toList, "ana@x.com".toList)]
      (replace_placeholders "Hi {{name}}, your code is {{code}}".toList
        [("name".toList, "Ana".toList), ("email".toList, "ana@x.com".toList)]) ∧
    replace_placeholders "Hi {{name}}, your code is {{code}}".toList
        [("name".toList, "Ana".toList), ("email".toList, "ana@x.com".toList)] =
      "Hi Ana, your code is {{code}}".toList ∧
    replace_placeholders "{{name}} and {{name}}".toList
        [("name".toList, "Ana".toList)] = "Ana and Ana".toList ∧
    replace_placeholders "Hello {{x}}!".toList [("absent".toList, "v".toList)] =
      "Hello {{x}}!".toList :=
  ⟨claim_c4_render_substitution.1 _ _, claim_c4_render_substitution.2.1,
    claim_c4_render_substitution.2.2.1,
    claim_c4_render_substitution.2.2.2 "Hello {{x}}!".toList
      [("absent".toList, "v".toList)] (by decide)⟩

/-- C7: rendering is idempotent once the rendered output contains no
occurrence of `{{key}}` for any key of the row data: a second application
of `replace_placeholders` with the same row returns the first output
unchanged. -/
theorem claim_c7_render_idempotent (T : Str) (data : List (Str × Str))
    (h : ∀ kv ∈ data, ¬ (mkPlaceholder kv.1 <:+: replace_placeholders T data)) :
    replace_placeholders (replace_placeholders T data) data =
      replace_placeholders T data :=
  replace_placeholders_of_no_occurrence data _ h

theorem claim_c7_render_idempotent_witness :
    replace_placeholders
        (replace_placeholders "Hi {{name}}, your code is {{code}}".toList
          [("name".toList, "Ana".toList)])
        [("name".toList, "Ana".toList)] =
      replace_placeholders "Hi {{name}}, your code is {{code}}".toList
        [("name".toList, "Ana".toList)] :=
  claim_c7_render_idempotent "Hi {{name}}, your code is {{code}}".toList
    [("name".toList, "Ana".toList)] (by decide)

/-- C9: substitution is sequential over the row's keys, not simultaneous:
for the template `{{a}}` and the row `{a: "{{b}}", b: "SECRET"}`, the
token `{{b}}` — which does not occur in the template — is introduced by
the substitution of `a` and then itself substituted, so the key `b`
affects the output even though its token is absent from the template. -/
theorem claim_c9_sequential_substitution :
    replace_placeholders "{{a}}".toList
        [("a".toList, "{{b}}".toList), ("b".toList, "SECRET".toList)] =
      "SECRET".toList ∧
    ¬ (mkPlaceholder "b".toList <:+: "{{a}}".toList) ∧
    replace_placeholders "{{a}}".toList [("a".toList, "{{b}}".toList)] =
      "{{b}}".toList :=
  ⟨by decide, by decide, by decide⟩

/-- C6 is refuted as stated: the `\w` of the extraction pattern is
Unicode-aware (a `str` pattern without `re.ASCII`), so `extract_placeholders`
also extracts identifier names outside `[A-Za-z0-9_]+`: from `{{é}}` the
program extracts the name `é`, whose character is no ASCII word
character. -/
theorem claim_c6_counterexample :
    "é".toList ∈ extract_placeholders "{{é}}".toList ∧
    ¬ (∀ c ∈ "é".toList, isAsciiWordChar c = true) :=
  ⟨by decide, by decide⟩

/-- C6 (amended): the identifier class is Python's Unicode-aware `\w` —
underscore or Unicode alphanumeric, not only `[A-Za-z0-9_]`.  For every
template in the Latin-1 fragment, on which the model enumerates `\w`
exactly, `extract_placeholders T` contains, without duplicates, exactly
the non-empty `\w+` names whose literal `{{name}}` token occurs in
`T`. -/
theorem claim_c6_extract_placeholders (T name : Str)
    (_hT : ∀ c ∈ T, isLatin1 c = true) :
    (name ∈ extract_placeholders T ↔
      name ≠ [] ∧ (∀ c ∈ name, isWordChar c) ∧ mkPlaceholder name <:+: T) ∧
    (extract_placeholders T).Nodup := by
  constructor
  · rw [extract_placeholders, List.mem_dedup]
    unfold findPlaceholders
    constructor
    · exact mem_findAux
    · rintro ⟨hne, hw, hinf⟩
      exact findAux_complete hne hw hinf (Nat.le_refl _)
  · exact List.nodup_dedup _

theorem claim_c6_extract_placeholders_witness :
    "é".toList ∈ extract_placeholders "Dear {{é}}, hello {{name}}".toList ∧
    (extract_placeholders "Dear {{é}}, hello {{name}}".toList).Nodup := by
  have h := claim_c6_extract_placeholders "Dear {{é}}, hello {{name}}".toList
    "é".toList (by decide)
  exact ⟨h.1.mpr ⟨by decide, by decide, by decide⟩, h.2⟩

/-- C5 is refuted as stated: `validate_email` also accepts a string with
one extra trailing newline, because Python's `$` matches just before a
newline at the end of the string.  `"a@b.com\n"` is accepted but is not
of the form local-part, `@`, domain, dot, two-or-more letters with
nothing after it. -/
theorem claim_c5_counterexample :
    validate_email "a@b.com\n".toList = true ∧
      ¬ EmailPattern "a@b.com\n".toList := by
  constructor
  · decide
  · intro h
    obtain ⟨c, hc, ha⟩ := emailPattern_last h
    have h2 : ("a@b.com\n".toList).getLast? = some '\n' := by decide
    rw [h2] at hc
    rw [← Option.some.inj hc] at ha
    exact absurd ha (by decide)

/-- C5 (amended): `validate_email s` returns true exactly when `s` itself
matches the anchored pattern — one-or-more of `[A-Za-z0-9._%+-]`, then
`@`, then one-or-more of `[A-Za-z0-9.-]`, then `.`, then two or more
letters — or `s` is such a match followed by one trailing newline. -/
theorem claim_c5_validate_email (s : Str) :
    validate_email s = true ↔
      EmailPattern s ∨ ∃ s0, s = s0 ++ ['\n'] ∧ EmailPattern s0 :=
  validate_email_iff s

/-- C1: after a successful connection, if the transport fails exactly at
row `k` and succeeds on every other row, the outcome sequence has one
entry per input row, in input order (entry `j` carries row `j`'s email
and name), with entry `k` recording `success = false` and the failure
reason, every other entry recording `success = true`, and the failure at
row `k` aborting nothing. -/
theorem claim_c1_per_row_outcomes (t : Transport) (template : Str) (rows : List Row)
    (k : Nat) (err : Str)
    (hconn : t.connectError = none)
    (hk : k < rows.length)
    (hfail : t.sendError k = some err)
    (hok : ∀ i, i ≠ k → t.sendError i = none) :
    ((dispatch t template rows).results).length = rows.length ∧
    (∀ j row, rows[j]? = some row →
      ∃ o, ((dispatch t template rows).results)[j]? = some o ∧
        o.recipient = row.email ∧ o.name = row.name ∧
        (j ≠ k → o.success = true ∧ o.message = "Email sent successfully".toList) ∧
        (j = k → o.success = false ∧
          o.message = "Failed to send email: ".toList ++ err)) ∧
    (∃ o, ((dispatch t template rows).results)[k]? = some o ∧
      o.success = false ∧ o.message = "Failed to send email: ".toList ++ err) := by
  have hres : (dispatch t template rows).results = sendLoop t template rows 0 := by
    rw [dispatch, hconn]
  have hmain : ∀ j row, rows[j]? = some row →
      ∃ o, ((dispatch t template rows).results)[j]? = some o ∧
        o.recipient = row.email ∧ o.name = row.name ∧
        (j ≠ k → o.success = true ∧ o.message = "Email sent successfully".toList) ∧
        (j = k → o.success = false ∧
          o.message = "Failed to send email: ".toList ++ err) := by
    intro j row hrow
    rw [hres, sendLoop_getElem? t template rows 0 j, hrow]
    refine ⟨rowOutcome t template (0 + j) row, rfl, rfl, rfl, ?_, ?_⟩
    · intro hne
      have hz : t.sendError j = none := hok j hne
      simp [rowOutcome, send_email, hz]
    · intro heq
      subst heq
      simp [rowOutcome, send_email, hfail]
  refine ⟨by rw [hres]; exact sendLoop_length t template rows 0, hmain, ?_⟩
  obtain ⟨o, ho, _, _, _, hkk⟩ :=
    hmain k (rows.get ⟨k, hk⟩) (List.getElem?_eq_getElem hk)
  exact ⟨o, ho, hkk rfl⟩

theorem claim_c1_per_row_outcomes_witness :
    ((dispatch ⟨none, fun i => if i = 1 then some "boom".toList else none⟩ "T".toList
        [⟨"A".toList, "a@x.com".toList, []⟩, ⟨"B".toList, "b@x.com".toList, []⟩,
          ⟨"C".toList, "c@x.com".toList, []⟩]).results).length = 3 ∧
    (∃ o, ((dispatch ⟨none, fun i => if i = 1 then some "boom".toList else none⟩ "T".toList
        [⟨"A".toList, "a@x.com".toList, []⟩, ⟨"B".toList, "b@x.com".toList, []⟩,
          ⟨"C".toList, "c@x.com".toList, []⟩]).results)[1]? = some o ∧
      o.success = false ∧ o.message = "Failed to send email: ".toList ++ "boom".toList) := by
  have h := claim_c1_per_row_outcomes
    ⟨none, fun i => if i = 1 then some "boom".toList else none⟩ "T".toList
    [⟨"A".toList, "a@x.com".toList, []⟩, ⟨"B".toList, "b@x.com".toList, []⟩,
      ⟨"C".toList, "c@x.com".toList, []⟩] 1 "boom".toList rfl (by decide) rfl
    (by
      intro i hi
      show (if i = 1 then some "boom".toList else none) = none
      rw [if_neg hi])
  exact ⟨h.1, h.2.2⟩

/-- C2: if the connection phase (connect, STARTTLS, login) raises, the
handler produces no outcome at all, attempts no per-row send, and reports
the single fatal `"SMTP connection error: ..."` message, whatever the
batch is. -/
theorem claim_c2_connection_failure (t : Transport) (template : Str) (rows : List Row)
    (e : Str) (hconn : t.connectError = some e) :
    (dispatch t template rows).results = [] ∧
    (dispatch t template rows).fatalError =
      some ("SMTP connection error: ".toList ++ e) ∧
    ∀ i, Event.sent i ∉ (dispatch t template rows).events := by
  refine ⟨?_, ?_, ?_⟩ <;> simp [dispatch, hconn]

theorem claim_c2_connection_failure_witness :
    (dispatch ⟨some "auth failed".toList, fun _ => none⟩ "T".toList
      [⟨"A".toList, "a@x.com".toList, []⟩]).results = [] ∧
    (dispatch ⟨some "auth failed".toList, fun _ => none⟩ "T".toList
      [⟨"A".toList, "a@x.com".toList, []⟩]).fatalError =
      some ("SMTP connection error: ".toList ++ "auth failed".toList) ∧
    Event.sent 0 ∉ (dispatch ⟨some "auth failed".toList, fun _ => none⟩ "T".toList
      [⟨"A".toList, "a@x.com".toList, []⟩]).events := by
  have h := claim_c2_connection_failure
    ⟨some "auth failed".toList, fun _ => none⟩ "T".toList
    [⟨"A".toList, "a@x.com".toList, []⟩] "auth failed".toList rfl
  exact ⟨h.1, h.2.1, h.2.2 0⟩

/-- C8: on every run in which the transport session was acquired — the
connection phase did not raise — the handler's event trace ends with the
session release (`server.quit()`), after all per-row sends, whatever the
rows and the per-row send failures. -/
theorem claim_c8_session_released (t : Transport) (template : Str) (rows : List Row)
    (hconn : t.connectError = none) :
    Event.quit ∈ (dispatch t template rows).events ∧
    (dispatch t template rows).events.getLast? = some Event.quit := by
  have hev : (dispatch t template rows).events =
      Event.connected :: (sentEvents rows 0 ++ [Event.quit]) := by
    rw [dispatch, hconn]
  rw [hev]
  constructor
  · simp
  · rw [show Event.connected :: (sentEvents rows 0 ++ [Event.quit]) =
        (Event.connected :: sentEvents rows 0) ++ [Event.quit] by simp]
    exact List.getLast?_concat _

theorem claim_c8_session_released_witness :
    Event.quit ∈ (dispatch ⟨none, fun _ => some "boom".toList⟩ "T".toList
      [⟨"A".toList, "a@x.com".toList, []⟩]).events ∧
    (dispatch ⟨none, fun _ => some "boom".toList⟩ "T".toList
      [⟨"A".toList, "a@x.com".toList, []⟩]).events.getLast? = some Event.quit :=
  claim_c8_session_released ⟨none, fun _ => some "boom".toList⟩ "T".toList
    [⟨"A".toList, "a@x.com".toList, []⟩] rfl

/-- C3: `validate_csv_columns` checks in a fixed order and stops at the
first failing category — missing `name`/`email` column first, then blank
or null values in those columns, then the email-format scan, whose report
lists the first five of all offending rows (1-based) found in one pass;
the two-row table with emails `a@b.com` and `not-an-email` fails citing
row 2, and a well-formed table is accepted. -/
theorem claim_c3_validate_order :
    (∀ df : DataFrame,
      ((nameCol ∉ df.columns ∨ emailCol ∉ df.columns) →
        (validate_csv_columns df).1 = false ∧
        "Missing required columns: ".toList <+: (validate_csv_columns df).2) ∧
      (nameCol ∈ df.columns → emailCol ∈ df.columns →
        ((df.series nameCol).any isEmptyCell = true ∨
          (df.series emailCol).any isEmptyCell = true) →
        (validate_csv_columns df).1 = false ∧
        ((validate_csv_columns df).2 = "Column 'name' contains empty values".toList ∨
          (validate_csv_columns df).2 = "Column 'email' contains empty values".toList)) ∧
      (nameCol ∈ df.columns → emailCol ∈ df.columns →
        (df.series nameCol).any isEmptyCell = false →
        (df.series emailCol).any isEmptyCell = false →
        offendingRows df ≠ [] →
        (validate_csv_columns df).1 = false ∧
        (validate_csv_columns df).2 = "Invalid email addresses found:\n".toList ++
          joinSep "\n".toList ((offendingRows df).take 5)) ∧
      (nameCol ∈ df.columns → emailCol ∈ df.columns →
        (df.series nameCol).any isEmptyCell = false →
        (df.series emailCol).any isEmptyCell = false →
        offendingRows df = [] →
        validate_csv_columns df = (true, "CSV validation successful".toList))) ∧
    validate_csv_columns ⟨[(nameCol, [some "Bob".toList, some "Eve".toList]),
        (emailCol, [some "a@b.com".toList, some "not-an-email".toList])]⟩ =
      (false, "Invalid email addresses found:\nRow 2: not-an-email".toList) ∧
    validate_csv_columns ⟨[(nameCol, [some "Bob".toList]),
        (emailCol, [some "a@b.com".toList])]⟩ =
      (true, "CSV validation successful".toList) := by
  refine ⟨fun df => ⟨?_, ?_, ?_, ?_⟩, by decide, by decide⟩
  · intro hmiss
    have hne : [nameCol, emailCol].filter (fun c => decide (c ∉ df.columns)) ≠ [] := by
      rw [Ne, missing_nil_iff]
      tauto
    rw [validate_csv_columns, if_pos hne]
    exact ⟨rfl, List.prefix_append _ _⟩
  · intro h1 h2 hemp
    have hmiss : [nameCol, emailCol].filter (fun c => decide (c ∉ df.columns)) = [] :=
      (missing_nil_iff df).mpr ⟨h1, h2⟩
    rw [validate_csv_columns, if_neg (fun hcon => hcon hmiss)]
    by_cases hn : (df.series nameCol).any isEmptyCell = true
    · rw [if_pos hn]
      exact ⟨rfl, Or.inl rfl⟩
    · have he : (df.series emailCol).any isEmptyCell = true := by
        rcases hemp with h | h
        · exact absurd h hn
        · exact h
      rw [if_neg hn, if_pos he]
      exact ⟨rfl, Or.inr rfl⟩
  · intro h1 h2 hn he hoff
    have hmiss : [nameCol, emailCol].filter (fun c => decide (c ∉ df.columns)) = [] :=
      (missing_nil_iff df).mpr ⟨h1, h2⟩
    rw [validate_csv_columns, if_neg (fun hcon => hcon hmiss), if_neg (by simp [hn]),
      if_neg (by simp [he]), if_pos hoff]
    exact ⟨rfl, rfl⟩
  · intro h1 h2 hn he hoff
    have hmiss : [nameCol, emailCol].filter (fun c => decide (c ∉ df.columns)) = [] :=
      (missing_nil_iff df).mpr ⟨h1, h2⟩
    rw [validate_csv_columns, if_neg (fun hcon => hcon hmiss), if_neg (by simp [hn]),
      if_neg (by simp [he]), if_neg (by simp [hoff])]

theorem claim_c3_validate_order_witness :
    (validate_csv_columns ⟨[(nameCol, [some "Bob".toList])]⟩).1 = false ∧
    "Missing required columns: ".toList <+:
      (validate_csv_columns ⟨[(nameCol, [some "Bob".toList])]⟩).2 :=
  (claim_c3_validate_order.1 ⟨[(nameCol, [some "Bob".toList])]⟩).1 (Or.inr (by decide))

/-- C10: the emptiness check inspects only the `name` and `email`
columns: every table that has both columns, with no null or blank value
in them and every email passing the format check, is accepted — whatever
the other columns contain, nulls and empty strings included. -/
theorem claim_c10_other_columns_ignored (df : DataFrame)
    (h1 : nameCol ∈ df.columns) (h2 : emailCol ∈ df.columns)
    (hn : ∀ cell ∈ df.series nameCol, isEmptyCell cell = false)
    (he : ∀ cell ∈ df.series emailCol, isEmptyCell cell = false)
    (hv : ∀ cell ∈ df.series emailCol, validate_email (cellStr cell) = true) :
    validate_csv_columns df = (true, "CSV validation successful".toList) := by
  have hmiss : [nameCol, emailCol].filter (fun c => decide (c ∉ df.columns)) = [] :=
    (missing_nil_iff df).mpr ⟨h1, h2⟩
  have hna : (df.series nameCol).any isEmptyCell = false := by
    rw [List.any_eq_false]
    intro cell hc
    simp [hn cell hc]
  have hea : (df.series emailCol).any isEmptyCell = false := by
    rw [List.any_eq_false]
    intro cell hc
    simp [he cell hc]
  have hoff : offendingRows df = [] := by
    rw [offendingRows, List.filterMap_eq_nil_iff]
    intro p hp
    rw [if_pos (hv p.2 (List.snd_mem_of_mem_enum hp))]
  rw [validate_csv_columns, if_neg (fun hcon => hcon hmiss), if_neg (by simp [hna]),
    if_neg (by simp [hea]), if_neg (by simp [hoff])]

theorem claim_c10_other_columns_ignored_witness :
    validate_csv_columns ⟨[(nameCol, [some "Bob".toList, some "Eve".toList]),
        (emailCol, [some "a@b.com".toList, some "c@d.org".toList]),
        ("note".toList, [none, some [] ])]⟩ =
      (true, "CSV validation successful".toList) :=
  claim_c10_other_columns_ignored
    ⟨[(nameCol, [some "Bob".toList, some "Eve".toList]),
      (emailCol, [some "a@b.com".toList, some "c@d.org".toList]),
      ("note".toList, [none, some [] ])]⟩
    (by decide) (by decide) (by decide) (by decide) (by decide)

end EmailApp
